import Mathlib

/-!
Shallow embedding of `src/value_unit.rs` (natpl): the unit algebra over
`BTreeMap<Name, isize>`, the `ValueKind`/`Value` wrapper, and the numeric
display branch logic, together with proofs of the specified properties.

A Rust `BTreeMap<Name, isize>` is modelled as an association list
`List (Name × Int)` whose keys are strictly increasing (`WFparts`); this is
the representation invariant the real `BTreeMap` maintains.  `isize`
exponents are modelled as `Int` (no claim here depends on machine-width
overflow).  `Name` is modelled as `String` (it is an interned identifier
with total order, equality and display).
-/

namespace Natpl

abbrev Name := String

/-- Lexicographic comparison of char lists by code point: the order `Ord`
gives a Rust string, restated structurally so the kernel can evaluate it. -/
def ltChars : List Char → List Char → Bool
  | _, [] => false
  | [], _ :: _ => true
  | a :: as, b :: bs =>
    if a.toNat < b.toNat then true
    else if b.toNat < a.toNat then false
    else ltChars as bs

/-- The strict order on `Name` used by the `BTreeMap<Name, isize>` model:
lexicographic on the characters, as Rust's derived `Ord` on a string-like
name type. -/
def nameLt (a b : Name) : Bool := ltChars a.data b.data

/-- Lookup of a key in an association list, mirroring `BTreeMap::get`
(first matching entry; for well-formed lists there is at most one). -/
def lookupKey (k : Name) : List (Name × Int) → Option Int
  | [] => none
  | p :: rest => if p.1 = k then some p.2 else lookupKey k rest

/-- Sorted insert-or-replace, mirroring `BTreeMap::insert` on the
sorted-entry representation. -/
def insertKey (k : Name) (v : Int) : List (Name × Int) → List (Name × Int)
  | [] => [(k, v)]
  | p :: rest =>
    if nameLt k p.1 then (k, v) :: p :: rest
    else if k = p.1 then (k, v) :: rest
    else p :: insertKey k v rest

/-- Removal of a key, mirroring `BTreeMap::remove` (removes the first
matching entry; for well-formed lists there is at most one). -/
def eraseKey (k : Name) : List (Name × Int) → List (Name × Int)
  | [] => []
  | p :: rest => if p.1 = k then rest else p :: eraseKey k rest

/-- One iteration of the loop body shared by `Unit::multiply` and
`Unit::divide`:
`parts.entry(name).and_modify(|e| *e += val).or_insert(val)` computes the
total `old + val` (with `val` itself when the key was absent) and stores it;
then `if total == 0 { parts.remove(name); }`. -/
def entryAddRemove (m : List (Name × Int)) (k : Name) (v : Int) :
    List (Name × Int) :=
  let total := (lookupKey k m).getD 0 + v
  let m1 := insertKey k total m
  if total = 0 then eraseKey k m1 else m1

/-- The `Unit` struct: `parts: BTreeMap<Name, isize>`. -/
structure Unit where
  parts : List (Name × Int)
deriving DecidableEq

/-- Boolean check that an entry list is strictly sorted by key. -/
def sortedKeys : List (Name × Int) → Bool
  | [] => true
  | [_] => true
  | p :: q :: rest => nameLt p.1 q.1 && sortedKeys (q :: rest)

/-- Representation invariant of `BTreeMap`: entries strictly sorted by key. -/
abbrev WFparts (l : List (Name × Int)) : Prop := sortedKeys l = true

/-- A `Unit` value as produced by the Rust code: its entry list is the
strictly key-sorted entry sequence of a `BTreeMap`. -/
abbrev Unit.WF (u : Unit) : Prop := WFparts u.parts

/-- The spec's canonical-form invariant: no stored exponent is `0`. -/
abbrev Unit.Canon (u : Unit) : Prop := ∀ p ∈ u.parts, p.2 ≠ 0

/-- `Unit::new()`: the dimensionless unit (empty map, via `Default`). -/
def Unit.new : Unit := ⟨[]⟩

/-- `Unit::new_named(name)`: inserts `(name, 1)` into the empty map. -/
def Unit.new_named (name : Name) : Unit := ⟨[(name, 1)]⟩

/-- `Unit::singleton`: `None` unless the map has exactly one entry whose
exponent is exactly `1`, in which case the sole name is returned. -/
def Unit.singleton (u : Unit) : Option Name :=
  if u.parts.length ≠ 1 then none
  else
    match u.parts.head? with
    | none => none
    | some (name, p) => if p ≠ 1 then none else some name

/-- `Unit::multiply`: clone `self.parts`, then for every `(name, val)` of
`other.parts` (in ascending key order) add `val` into the entry for `name`
(inserting `val` when absent) and remove the entry when the total is `0`. -/
def Unit.multiply (a b : Unit) : Unit :=
  ⟨b.parts.foldl (fun m kv => entryAddRemove m kv.1 kv.2) a.parts⟩

/-- `Unit::divide`: same loop as `multiply` but with
`and_modify(|e| *e -= *val).or_insert(-*val)`, i.e. the added value is
`-val`. -/
def Unit.divide (a b : Unit) : Unit :=
  ⟨b.parts.foldl (fun m kv => entryAddRemove m kv.1 (-kv.2)) a.parts⟩

/-- `Unit::pow(n)`: with `is_neg = n.is_negative()` and `n_add = n.abs()`,
map every entry `(k, v)` to `v * n_add`, drop it when that is `0`, and
negate it when `is_neg`. -/
def Unit.pow (u : Unit) (n : Int) : Unit :=
  let is_neg := n < 0
  let n_add : Int := n.natAbs
  ⟨u.parts.filterMap (fun kv =>
      let v := kv.2 * n_add
      if v = 0 then none
      else if is_neg then some (kv.1, -v) else some (kv.1, v))⟩

/-- String rendered for one entry of `Unit`'s `Display` impl: the name,
followed by `^pow` exactly when the exponent differs from `1`. -/
def dispEntry (p : Name × Int) : String :=
  p.1 ++ (if p.2 ≠ 1 then "^" ++ toString p.2 else "")

/-- `impl Display for Unit`: iterate the entries with their index `i`,
writing a single space before every entry with `i > 0`, then the name, then
`^pow` when the exponent is not `1`. -/
def Unit.display (u : Unit) : String :=
  u.parts.enum.foldl
    (fun acc ip =>
      acc ++ (if 0 < ip.1 then " " else "") ++ dispEntry ip.2)
    ""

/-- Space-separated rendering of an entry list, used to characterise
`Unit.display`. -/
def displaySpec : List (Name × Int) → String
  | [] => ""
  | [p] => dispEntry p
  | p :: q :: rest => dispEntry p ++ " " ++ displaySpec (q :: rest)

/-- Closure of the `Unit` constructors and combinators: every `Unit` the
rest of the program can ever hold. -/
inductive Unit.Reachable : Unit → Prop
  | new : Unit.Reachable Unit.new
  | new_named (n : Name) : Unit.Reachable (Unit.new_named n)
  | multiply {a b : Unit} : Unit.Reachable a → Unit.Reachable b →
      Unit.Reachable (a.multiply b)
  | divide {a b : Unit} : Unit.Reachable a → Unit.Reachable b →
      Unit.Reachable (a.divide b)
  | pow {a : Unit} (n : Int) : Unit.Reachable a → Unit.Reachable (a.pow n)

/-! ### The value wrapper and the number formatter -/

/-- The payload of `ValueKind::Number`: the `bigdecimal::BigDecimal` type,
an arbitrary-precision decimal `digits × 10^(-scale)`. Only its equality
contract matters for the claims here. -/
structure BigDecimal where
  digits : Int
  scale : Int
deriving DecidableEq

/-- The `ValueKind` enum: `FunctionRef(Name)`, `Number(BigDecimal)`,
`Bool(bool)`; derives structural equality. -/
inductive ValueKind where
  | FunctionRef (name : Name)
  | Number (num : BigDecimal)
  | Bool (b : Bool)
deriving DecidableEq

/-- The `Value` struct: `{ kind: ValueKind, unit: Unit }`. -/
structure Value where
  kind : ValueKind
  unit : Unit

/-- The derive list on `struct Value` in the source:
`#[derive(Debug, Clone)]`. -/
def Value.derives : List String := ["Debug", "Clone"]

/-- The derive list on `enum ValueKind` in the source:
`#[derive(Debug, Clone, Eq, PartialEq)]`. -/
def ValueKind.derives : List String := ["Debug", "Clone", "Eq", "PartialEq"]

/-- The derive list on `struct Unit` in the source:
`#[derive(Default, Debug, Clone, Eq, PartialEq)]`. -/
def Unit.derives : List String := ["Default", "Debug", "Clone", "Eq", "PartialEq"]

/-- Modelled from the spec: the precision-limiting helper `max_precision`
from `scinot_parsing` (not under `src/`): given a digit sequence and a
maximum length, it returns the sequence limited to that length. -/
def max_precision (s : String) (n : Nat) : String := s.take n

/-- The `x10^exp` suffix computed by the `Number` arm of
`impl Display for ValueKind`: empty when `exp == 0`. -/
def expStr (exp : Int) : String :=
  if exp = 0 then "" else "x10^" ++ toString exp

/-- The shape of the output the `Number` arm writes: fixed point with a
chosen number of fractional digits, integer digits plus exponent suffix, or
integer digits, truncated decimal digits and exponent suffix. -/
inductive NumberRendering where
  | fixedPoint (prec : Nat)
  | intOnly (int : String) (exp_str : String)
  | intDec (int : String) (dec : String) (exp_str : String)
deriving DecidableEq

/-- The branch/precision logic of the `Number` arm of
`impl Display for ValueKind`, as a function of the decomposition
`(int, dec, exp)` returned by `dec_in_scientific_notation`:
if `(0..4).contains(&exp)` render fixed point with `0` fractional digits
when `dec.len() < exp`, else with `dec.len().min(4) - exp`; else if
`(-3..0).contains(&exp)` render fixed point with
`(dec.len() + (-exp)).min(4)`; else if `dec` is empty render
`"{int}{exp_str}"`; else render `"{int}.{max_precision(dec,3)}{exp_str}"`. -/
def renderNumber (int dec : String) (exp : Int) : NumberRendering :=
  if 0 ≤ exp ∧ exp < 4 then
    if dec.length < exp.toNat then .fixedPoint 0
    else .fixedPoint (min dec.length 4 - exp.toNat)
  else if -3 ≤ exp ∧ exp < 0 then
    .fixedPoint (min (dec.length + (-exp).toNat) 4)
  else if dec.isEmpty then
    .intOnly int (expStr exp)
  else
    .intDec int (max_precision dec 3) (expStr exp)

/-- Rendering of a tail of `Unit` entries (each preceded by a space). -/
def restStr : List (Name × Int) → String
  | [] => ""
  | p :: t => " " ++ dispEntry p ++ restStr t

/-! ### Properties of the name order -/

theorem char_eq_of_toNat_eq {a b : Char} (h : a.toNat = b.toNat) : a = b := by
  have h2 := congrArg Char.ofNat h
  rwa [Char.ofNat_toNat, Char.ofNat_toNat] at h2

theorem ltChars_cons_iff {x y : Char} {xs ys : List Char} :
    ltChars (x :: xs) (y :: ys) = true ↔
      x.toNat < y.toNat ∨ (x.toNat = y.toNat ∧ ltChars xs ys = true) := by
  simp only [ltChars]
  split_ifs with h1 h2
  · simp [h1]
  · simp; omega
  · have hxy : x.toNat = y.toNat := by omega
    simp [hxy]

theorem ltChars_irrefl : ∀ l : List Char, ltChars l l = false
  | [] => rfl
  | _ :: rest => by
    simp only [ltChars, Nat.lt_irrefl, if_false]
    exact ltChars_irrefl rest

theorem ltChars_trans : ∀ (a b c : List Char),
    ltChars a b = true → ltChars b c = true → ltChars a c = true := by
  intro a
  induction a with
  | nil =>
    intro b c hab hbc
    cases b with
    | nil => simp [ltChars] at hab
    | cons y ys =>
      cases c with
      | nil => simp [ltChars] at hbc
      | cons z zs => simp [ltChars]
  | cons x xs ih =>
    intro b c hab hbc
    cases b with
    | nil => simp [ltChars] at hab
    | cons y ys =>
      cases c with
      | nil => simp [ltChars] at hbc
      | cons z zs =>
        rw [ltChars_cons_iff] at hab hbc ⊢
        rcases hab with h1 | ⟨h1, h1t⟩ <;> rcases hbc with h2 | ⟨h2, h2t⟩
        · exact Or.inl (by omega)
        · exact Or.inl (by omega)
        · exact Or.inl (by omega)
        · exact Or.inr ⟨by omega, ih ys zs h1t h2t⟩

theorem ltChars_conn : ∀ (a b : List Char),
    ltChars a b = false → ltChars b a = false → a = b := by
  intro a
  induction a with
  | nil =>
    intro b hab _
    cases b with
    | nil => rfl
    | cons y ys => simp [ltChars] at hab
  | cons x xs ih =>
    intro b hab hba
    cases b with
    | nil => simp [ltChars] at hba
    | cons y ys =>
      have hab2 := hab
      have hba2 := hba
      rw [Bool.eq_false_iff, Ne, ltChars_cons_iff] at hab2 hba2
      push_neg at hab2 hba2
      have hxy : x.toNat = y.toNat := by omega
      have hx : x = y := char_eq_of_toNat_eq hxy
      subst hx
      have ht := ih ys (by simpa using hab2.2 rfl) (by simpa using hba2.2 rfl)
      rw [ht]

theorem nameLt_irrefl (a : Name) : nameLt a a = false := ltChars_irrefl _

theorem nameLt_trans {a b c : Name} (h1 : nameLt a b = true)
    (h2 : nameLt b c = true) : nameLt a c = true :=
  ltChars_trans _ _ _ h1 h2

theorem nameLt_conn {a b : Name} (h1 : nameLt a b = false)
    (h2 : nameLt b a = false) : a = b :=
  String.ext (ltChars_conn _ _ h1 h2)

theorem nameLt_ne {a b : Name} (h : nameLt a b = true) : a ≠ b := by
  intro he
  subst he
  rw [nameLt_irrefl] at h
  exact Bool.false_ne_true h

theorem nameLt_asymm {a b : Name} (h : nameLt a b = true) : nameLt b a = false := by
  by_contra hc
  rw [Bool.not_eq_false] at hc
  exact absurd (nameLt_trans h hc) (by simp [nameLt_irrefl])

/-! ### Sorted association lists -/

theorem wf_iff_pairwise : ∀ {l : List (Name × Int)},
    WFparts l ↔ l.Pairwise (fun p q => nameLt p.1 q.1 = true) := by
  intro l
  induction l with
  | nil => exact ⟨fun _ => List.Pairwise.nil, fun _ => rfl⟩
  | cons p rest ih =>
    cases rest with
    | nil => exact ⟨fun _ => by simp, fun _ => rfl⟩
    | cons q t =>
      rw [List.pairwise_cons]
      constructor
      · intro h
        have h1 : (nameLt p.1 q.1 && sortedKeys (q :: t)) = true := h
        rw [Bool.and_eq_true] at h1
        have hp := ih.mp h1.2
        refine ⟨?_, hp⟩
        intro r hr
        rcases List.mem_cons.mp hr with rfl | hr
        · exact h1.1
        · exact nameLt_trans h1.1 (List.rel_of_pairwise_cons hp hr)
      · rintro ⟨hall, hp⟩
        have hq : WFparts (q :: t) := ih.mpr hp
        show (nameLt p.1 q.1 && sortedKeys (q :: t)) = true
        rw [Bool.and_eq_true]
        exact ⟨hall q (by simp), hq⟩

theorem wf_cons_lt {p : Name × Int} {l : List (Name × Int)}
    (h : WFparts (p :: l)) : ∀ q ∈ l, nameLt p.1 q.1 = true :=
  fun _ hq => List.rel_of_pairwise_cons (wf_iff_pairwise.mp h) hq

theorem wf_tail {p : Name × Int} {l : List (Name × Int)}
    (h : WFparts (p :: l)) : WFparts l :=
  wf_iff_pairwise.mpr (List.Pairwise.of_cons (wf_iff_pairwise.mp h))

theorem wf_keys_ne {p : Name × Int} {l : List (Name × Int)}
    (h : WFparts (p :: l)) : ∀ q ∈ l, q.1 ≠ p.1 :=
  fun q hq => (nameLt_ne (wf_cons_lt h q hq)).symm

/-! ### Lookup -/

theorem lookupKey_mem : ∀ {l : List (Name × Int)} {k : Name} {v : Int},
    lookupKey k l = some v → (k, v) ∈ l := by
  intro l
  induction l with
  | nil => intro k v h; simp [lookupKey] at h
  | cons p rest ih =>
    intro k v h
    rw [lookupKey] at h
    by_cases hk : p.1 = k
    · rw [if_pos hk] at h
      have hv : p.2 = v := by injection h
      exact List.mem_cons.mpr (Or.inl (by rw [← hk, ← hv]))
    · rw [if_neg hk] at h
      exact List.mem_cons_of_mem _ (ih h)

theorem lookupKey_eq_none_iff {l : List (Name × Int)} {k : Name} :
    lookupKey k l = none ↔ ∀ p ∈ l, p.1 ≠ k := by
  induction l with
  | nil => simp [lookupKey]
  | cons p rest ih =>
    rw [lookupKey]
    by_cases hk : p.1 = k
    · simp [hk]
    · simp [hk, ih]

theorem lookupKey_of_mem : ∀ {l : List (Name × Int)} {k : Name} {v : Int},
    WFparts l → (k, v) ∈ l → lookupKey k l = some v := by
  intro l
  induction l with
  | nil => intro k v _ h; simp at h
  | cons p rest ih =>
    intro k v hwf h
    rcases List.mem_cons.mp h with rfl | h
    · simp [lookupKey]
    · have hne : k ≠ p.1 := wf_keys_ne hwf (k, v) h
      rw [lookupKey, if_neg (fun he => hne he.symm)]
      exact ih (wf_tail hwf) h

theorem lookupKey_isSome_getD {l : List (Name × Int)} {k : Name}
    (h : lookupKey k l ≠ none) : lookupKey k l = some ((lookupKey k l).getD 0) := by
  cases hl : lookupKey k l with
  | none => exact absurd hl h
  | some v => rfl

/-! ### Insert -/

theorem mem_insertKey : ∀ {l : List (Name × Int)} {k : Name} {v : Int} {p : Name × Int},
    p ∈ insertKey k v l → p = (k, v) ∨ p ∈ l := by
  intro l
  induction l with
  | nil => intro k v p h; simp [insertKey] at h; simp [h]
  | cons q rest ih =>
    intro k v p h
    rw [insertKey] at h
    split_ifs at h with h1 h2
    · rcases List.mem_cons.mp h with rfl | h
      · exact Or.inl rfl
      · exact Or.inr h
    · rcases List.mem_cons.mp h with rfl | h
      · exact Or.inl rfl
      · exact Or.inr (List.mem_cons_of_mem _ h)
    · rcases List.mem_cons.mp h with rfl | h
      · exact Or.inr (List.mem_cons_self _ _)
      · rcases ih h with h | h
        · exact Or.inl h
        · exact Or.inr (List.mem_cons_of_mem _ h)

theorem lookupKey_insertKey_self : ∀ (l : List (Name × Int)) (k : Name) (v : Int),
    lookupKey k (insertKey k v l) = some v := by
  intro l
  induction l with
  | nil => intro k v; simp [insertKey, lookupKey]
  | cons q rest ih =>
    intro k v
    rw [insertKey]
    split_ifs with h1 h2
    · simp [lookupKey]
    · simp [lookupKey]
    · have hne : q.1 ≠ k := by
        intro he
        exact h2 he.symm
      rw [lookupKey, if_neg hne]
      exact ih k v

theorem lookupKey_insertKey_ne : ∀ (l : List (Name × Int)) {kp : Name} (k : Name)
    (v : Int), kp ≠ k → lookupKey kp (insertKey k v l) = lookupKey kp l := by
  intro l
  induction l with
  | nil =>
    intro kp k v hne
    simp [insertKey, lookupKey, Ne.symm hne]
  | cons q rest ih =>
    intro kp k v hne
    rw [insertKey]
    split_ifs with h1 h2
    · rw [lookupKey, if_neg (fun h => hne h.symm)]
    · subst h2
      rw [lookupKey, if_neg (fun h => hne h.symm), lookupKey,
        if_neg (fun h => hne h.symm)]
    · rw [lookupKey, lookupKey]
      by_cases hq : q.1 = kp
      · rw [if_pos hq, if_pos hq]
      · rw [if_neg hq, if_neg hq]
        exact ih k v hne

theorem wf_insertKey {l : List (Name × Int)} (k : Name) (v : Int)
    (h : WFparts l) : WFparts (insertKey k v l) := by
  rw [wf_iff_pairwise] at h ⊢
  induction l with
  | nil => simp [insertKey]
  | cons q rest ih =>
    rw [List.pairwise_cons] at h
    rw [insertKey]
    split_ifs with h1 h2
    · rw [List.pairwise_cons]
      refine ⟨?_, List.pairwise_cons.mpr h⟩
      intro r hr
      rcases List.mem_cons.mp hr with rfl | hr
      · exact h1
      · exact nameLt_trans h1 (h.1 r hr)
    · rw [List.pairwise_cons]
      exact ⟨fun r hr => h2 ▸ h.1 r hr, h.2⟩
    · rw [List.pairwise_cons]
      refine ⟨?_, ih h.2⟩
      intro r hr
      rcases mem_insertKey hr with rfl | hr
      · have hq : nameLt q.1 k = true := by
          rcases hb : nameLt q.1 k with _ | _
          · exact absurd (nameLt_conn (Bool.of_not_eq_true h1) hb) h2
          · rfl
        exact hq
      · exact h.1 r hr

/-! ### Erase -/

theorem eraseKey_sublist : ∀ (l : List (Name × Int)) (k : Name),
    (eraseKey k l).Sublist l := by
  intro l
  induction l with
  | nil => intro k; simp [eraseKey]
  | cons q rest ih =>
    intro k
    rw [eraseKey]
    split_ifs with h1
    · exact List.sublist_cons_self _ _
    · exact List.Sublist.cons₂ _ (ih k)

theorem wf_eraseKey {l : List (Name × Int)} (k : Name)
    (h : WFparts l) : WFparts (eraseKey k l) := by
  rw [wf_iff_pairwise] at h ⊢
  exact h.sublist (eraseKey_sublist l k)

theorem lookupKey_eraseKey_self {l : List (Name × Int)} {k : Name}
    (h : WFparts l) : lookupKey k (eraseKey k l) = none := by
  induction l with
  | nil => simp [eraseKey, lookupKey]
  | cons q rest ih =>
    rw [eraseKey]
    split_ifs with h1
    · rw [lookupKey_eq_none_iff]
      intro p hp
      rw [← h1]
      exact wf_keys_ne h p hp
    · rw [lookupKey, if_neg h1]
      exact ih (wf_tail h)

theorem lookupKey_eraseKey_ne : ∀ (l : List (Name × Int)) {kp : Name} (k : Name),
    kp ≠ k → lookupKey kp (eraseKey k l) = lookupKey kp l := by
  intro l
  induction l with
  | nil => intro kp k _; simp [eraseKey]
  | cons q rest ih =>
    intro kp k hne
    rw [eraseKey]
    split_ifs with h1
    · rw [lookupKey, if_neg (h1.symm ▸ fun h => hne h.symm)]
    · rw [lookupKey, lookupKey]
      by_cases hq : q.1 = kp
      · rw [if_pos hq, if_pos hq]
      · rw [if_neg hq, if_neg hq]
        exact ih k hne

/-! ### The shared multiply/divide loop body -/

theorem wf_entryAddRemove {m : List (Name × Int)} (k : Name) (v : Int)
    (h : WFparts m) : WFparts (entryAddRemove m k v) := by
  rw [entryAddRemove]
  split_ifs with h0
  · exact wf_eraseKey k (wf_insertKey k _ h)
  · exact wf_insertKey k _ h

theorem lookupKey_entryAddRemove_self {m : List (Name × Int)} (k : Name) (v : Int)
    (h : WFparts m) :
    lookupKey k (entryAddRemove m k v) =
      (fun s : Int => if s = 0 then none else some s) ((lookupKey k m).getD 0 + v) := by
  rw [entryAddRemove]
  split_ifs with h0
  · rw [lookupKey_eraseKey_self (wf_insertKey k _ h)]
    simp [h0]
  · rw [lookupKey_insertKey_self]
    simp [h0]

theorem lookupKey_entryAddRemove_ne {m : List (Name × Int)} {kp : Name}
    (k : Name) (v : Int) (hne : kp ≠ k) :
    lookupKey kp (entryAddRemove m k v) = lookupKey kp m := by
  rw [entryAddRemove]
  split_ifs with h0
  · rw [lookupKey_eraseKey_ne _ _ hne, lookupKey_insertKey_ne _ _ _ hne]
  · rw [lookupKey_insertKey_ne _ _ _ hne]

theorem wf_foldl_entryAddRemove (g : Int → Int) :
    ∀ (l m : List (Name × Int)), WFparts m →
      WFparts (l.foldl (fun m kv => entryAddRemove m kv.1 (g kv.2)) m) := by
  intro l
  induction l with
  | nil => intro m hm; exact hm
  | cons p rest ih =>
    intro m hm
    exact ih _ (wf_entryAddRemove _ _ hm)

theorem lookupKey_foldl_entryAddRemove (g : Int → Int) :
    ∀ (l m : List (Name × Int)), WFparts m → WFparts l → ∀ k,
      lookupKey k (l.foldl (fun m kv => entryAddRemove m kv.1 (g kv.2)) m) =
        match lookupKey k l with
        | none => lookupKey k m
        | some v =>
          if (lookupKey k m).getD 0 + g v = 0 then none
          else some ((lookupKey k m).getD 0 + g v) := by
  intro l
  induction l with
  | nil => intro m hm _ k; simp [lookupKey]
  | cons p rest ih =>
    intro m hm hl k
    have hm2 : WFparts (entryAddRemove m p.1 (g p.2)) := wf_entryAddRemove _ _ hm
    have step := ih (entryAddRemove m p.1 (g p.2)) hm2 (wf_tail hl) k
    rw [List.foldl_cons, step]
    by_cases hk : k = p.1
    · have hrest : lookupKey k rest = none := by
        rw [lookupKey_eq_none_iff]
        intro q hq
        rw [hk]
        exact wf_keys_ne hl q hq
      have hcons : lookupKey k (p :: rest) = some p.2 := by
        rw [lookupKey, if_pos hk.symm]
      rw [hrest, hcons, hk]
      exact lookupKey_entryAddRemove_self _ _ hm
    · have hcons : lookupKey k (p :: rest) = lookupKey k rest := by
        rw [lookupKey, if_neg (fun h => hk h.symm)]
      rw [lookupKey_entryAddRemove_ne p.1 (g p.2) hk, hcons]

/-! ### Extensionality for sorted association lists -/

theorem lookupKey_head_lt {l : List (Name × Int)} {k : Name}
    (hall : ∀ q ∈ l, nameLt k q.1 = true) : lookupKey k l = none := by
  rw [lookupKey_eq_none_iff]
  exact fun p hp => (nameLt_ne (hall p hp)).symm

theorem eq_of_lookupKey_eq : ∀ (l₁ l₂ : List (Name × Int)),
    WFparts l₁ → WFparts l₂ → (∀ k, lookupKey k l₁ = lookupKey k l₂) → l₁ = l₂ := by
  intro l₁
  induction l₁ with
  | nil =>
    intro l₂ _ h2 h
    cases l₂ with
    | nil => rfl
    | cons q t =>
      have hq := h q.1
      rw [lookupKey, lookupKey, if_pos rfl] at hq
      exact absurd hq (by simp)
  | cons p s ih =>
    intro l₂ h1 h2 h
    cases l₂ with
    | nil =>
      have hp := h p.1
      rw [lookupKey, lookupKey, if_pos rfl] at hp
      exact absurd hp (by simp)
    | cons q t =>
      have hkey : p.1 = q.1 := by
        rcases hpq : nameLt p.1 q.1 with _ | _
        · rcases hqp : nameLt q.1 p.1 with _ | _
          · exact nameLt_conn hpq hqp
          · have hq := h q.1
            rw [lookupKey, lookupKey, if_pos rfl,
              if_neg (fun he : p.1 = q.1 => (nameLt_ne hqp) he.symm),
              lookupKey_head_lt (fun r hr => nameLt_trans hqp (wf_cons_lt h1 r hr))] at hq
            exact absurd hq (by simp)
        · have hp := h p.1
          rw [lookupKey, lookupKey, if_pos rfl,
            if_neg (fun he : q.1 = p.1 => (nameLt_ne hpq) he.symm),
            lookupKey_head_lt (fun r hr => nameLt_trans hpq (wf_cons_lt h2 r hr))] at hp
          exact absurd hp.symm (by simp)
      have hval : p.2 = q.2 := by
        have hp := h p.1
        rw [lookupKey, lookupKey, if_pos rfl, if_pos hkey.symm] at hp
        injection hp
      have htails : ∀ k, lookupKey k s = lookupKey k t := by
        intro k
        by_cases hk : k = p.1
        · subst hk
          rw [lookupKey_eq_none_iff.mpr (wf_keys_ne h1),
            lookupKey_eq_none_iff.mpr (fun r hr => hkey ▸ wf_keys_ne h2 r hr)]
        · have hk2 := h k
          rw [lookupKey, lookupKey, if_neg (fun he => hk he.symm),
            if_neg (fun he => hk (hkey ▸ he.symm))] at hk2
          exact hk2
      have hpq : p = q := Prod.ext hkey hval
      rw [hpq, ih t (wf_tail h1) (wf_tail h2) htails]

/-! ### Canonical form via lookup -/

theorem canon_iff_lookup {l : List (Name × Int)} (hwf : WFparts l) :
    (∀ p ∈ l, p.2 ≠ 0) ↔ ∀ k v, lookupKey k l = some v → v ≠ 0 := by
  constructor
  · intro hc k v hl
    exact hc (k, v) (lookupKey_mem hl)
  · intro hc p hp
    exact hc p.1 p.2 (lookupKey_of_mem hwf hp)

theorem canon_lookup_ne_zero {l : List (Name × Int)} (hwf : WFparts l)
    (hc : ∀ p ∈ l, p.2 ≠ 0) {k : Name} {v : Int}
    (hl : lookupKey k l = some v) : v ≠ 0 :=
  (canon_iff_lookup hwf).mp hc k v hl

theorem canon_getD_eq_zero_iff {l : List (Name × Int)} (hwf : WFparts l)
    (hc : ∀ p ∈ l, p.2 ≠ 0) {k : Name} :
    (lookupKey k l).getD 0 = 0 ↔ lookupKey k l = none := by
  cases hl : lookupKey k l with
  | none => simp
  | some v =>
    simp only [Option.getD_some]
    exact ⟨fun h => absurd h (canon_lookup_ne_zero hwf hc hl), fun h => by simp at h⟩

theorem canon_lookup_eq {l : List (Name × Int)} (hwf : WFparts l)
    (hc : ∀ p ∈ l, p.2 ≠ 0) (k : Name) :
    lookupKey k l =
      (if (lookupKey k l).getD 0 = 0 then none else some ((lookupKey k l).getD 0)) := by
  cases hl : lookupKey k l with
  | none => simp
  | some v => simp [canon_lookup_ne_zero hwf hc hl]

theorem ifz_congr {x y : Int} (h : x = y) :
    (if x = 0 then (none : Option Int) else some x) =
      (if y = 0 then none else some y) := by
  rw [h]

/-! ### Unit-level characterisations -/

theorem parts_inj {a b : Unit} (h : a.parts = b.parts) : a = b := by
  cases a
  cases b
  cases h
  rfl

theorem Unit.wf_multiply (a b : Unit) (ha : a.WF) : (a.multiply b).WF :=
  wf_foldl_entryAddRemove id b.parts a.parts ha

theorem Unit.wf_divide (a b : Unit) (ha : a.WF) : (a.divide b).WF :=
  wf_foldl_entryAddRemove (fun v => -v) b.parts a.parts ha

theorem Unit.lookup_multiply (a b : Unit) (ha : a.WF) (hb : b.WF) (k : Name) :
    lookupKey k (a.multiply b).parts =
      match lookupKey k b.parts with
      | none => lookupKey k a.parts
      | some v =>
        if (lookupKey k a.parts).getD 0 + v = 0 then none
        else some ((lookupKey k a.parts).getD 0 + v) :=
  lookupKey_foldl_entryAddRemove id b.parts a.parts ha hb k

theorem Unit.lookup_divide (a b : Unit) (ha : a.WF) (hb : b.WF) (k : Name) :
    lookupKey k (a.divide b).parts =
      match lookupKey k b.parts with
      | none => lookupKey k a.parts
      | some v =>
        if (lookupKey k a.parts).getD 0 + -v = 0 then none
        else some ((lookupKey k a.parts).getD 0 + -v) :=
  lookupKey_foldl_entryAddRemove (fun v => -v) b.parts a.parts ha hb k

theorem pow_parts_eq (u : Unit) (n : Int) :
    (u.pow n).parts = u.parts.filterMap
      (fun kv => if kv.2 * n = 0 then none else some (kv.1, kv.2 * n)) := by
  show u.parts.filterMap _ = u.parts.filterMap _
  apply List.filterMap_congr
  intro kv _
  by_cases hneg : n < 0
  · have habs : (n.natAbs : Int) = -n := by omega
    have h1 : kv.2 * -n = -(kv.2 * n) := by ring
    simp only [habs, if_pos hneg, h1, neg_eq_zero, neg_neg]
  · have habs : (n.natAbs : Int) = n := by omega
    simp only [habs, if_neg hneg]

theorem wf_filterMap_scale (n : Int) {l : List (Name × Int)} (h : WFparts l) :
    WFparts (l.filterMap
      (fun kv => if kv.2 * n = 0 then none else some (kv.1, kv.2 * n))) := by
  rw [wf_iff_pairwise] at h ⊢
  rw [List.pairwise_filterMap]
  refine h.imp ?_
  intro a b hab x hx y hy
  have hxa : x.1 = a.1 := by
    by_cases h0 : a.2 * n = 0
    · rw [if_pos h0] at hx
      cases hx
    · rw [if_neg h0, Option.mem_def, Option.some_inj] at hx
      rw [← hx]
  have hyb : y.1 = b.1 := by
    by_cases h0 : b.2 * n = 0
    · rw [if_pos h0] at hy
      cases hy
    · rw [if_neg h0, Option.mem_def, Option.some_inj] at hy
      rw [← hy]
  rw [hxa, hyb]
  exact hab

theorem Unit.wf_pow (u : Unit) (n : Int) (hu : u.WF) : (u.pow n).WF := by
  show WFparts (u.pow n).parts
  rw [pow_parts_eq]
  exact wf_filterMap_scale n hu

theorem lookup_filterMap_scale (n : Int) : ∀ (l : List (Name × Int)), WFparts l →
    ∀ k, lookupKey k (l.filterMap
        (fun kv => if kv.2 * n = 0 then none else some (kv.1, kv.2 * n))) =
      (lookupKey k l).bind (fun v => if v * n = 0 then none else some (v * n)) := by
  intro l
  induction l with
  | nil => intro _ k; simp [lookupKey]
  | cons p rest ih =>
    intro hwf k
    rw [List.filterMap_cons]
    by_cases h0 : p.2 * n = 0
    · rw [if_pos h0]
      by_cases hk : p.1 = k
      · have hnone : lookupKey k (rest.filterMap
            (fun kv => if kv.2 * n = 0 then none else some (kv.1, kv.2 * n))) = none := by
          rw [lookupKey_eq_none_iff]
          intro q hq
          rcases List.mem_filterMap.mp hq with ⟨a, ha, hfa⟩
          have hqa : q.1 = a.1 := by
            by_cases h0a : a.2 * n = 0
            · rw [if_pos h0a] at hfa
              cases hfa
            · rw [if_neg h0a] at hfa
              injection hfa with hfa
              rw [← hfa]
          rw [hqa, ← hk]
          exact wf_keys_ne hwf a ha
        rw [hnone, lookupKey, if_pos hk]
        simp [h0, mul_eq_zero.mp h0]
      · rw [ih (wf_tail hwf) k, lookupKey, if_neg hk]
    · rw [if_neg h0, lookupKey, lookupKey]
      by_cases hk : p.1 = k
      · rw [if_pos hk, if_pos hk]
        simp [h0]
        exact mul_ne_zero_iff.mp h0
      · rw [if_neg hk, if_neg hk]
        exact ih (wf_tail hwf) k

theorem Unit.lookup_pow (u : Unit) (hu : u.WF) (n : Int) (k : Name) :
    lookupKey k (u.pow n).parts =
      (lookupKey k u.parts).bind (fun v => if v * n = 0 then none else some (v * n)) := by
  rw [pow_parts_eq]
  exact lookup_filterMap_scale n u.parts hu k

/-! ### Canonical form preservation -/

theorem Unit.canon_multiply (a b : Unit) (ha : a.WF) (hb : b.WF)
    (hac : a.Canon) : (a.multiply b).Canon := by
  rw [show (a.multiply b).Canon ↔ _ from
    canon_iff_lookup (Unit.wf_multiply a b ha)]
  intro k v hl
  rw [Unit.lookup_multiply a b ha hb k] at hl
  cases hbk : lookupKey k b.parts with
  | none =>
    rw [hbk] at hl
    exact canon_lookup_ne_zero ha hac hl
  | some w =>
    rw [hbk] at hl
    have hl2 : (if (lookupKey k a.parts).getD 0 + w = 0 then none
        else some ((lookupKey k a.parts).getD 0 + w)) = some v := hl
    by_cases hz : (lookupKey k a.parts).getD 0 + w = 0
    · rw [if_pos hz] at hl2
      cases hl2
    · rw [if_neg hz] at hl2
      injection hl2 with hl2
      rw [← hl2]
      exact hz

theorem Unit.canon_divide (a b : Unit) (ha : a.WF) (hb : b.WF)
    (hac : a.Canon) : (a.divide b).Canon := by
  rw [show (a.divide b).Canon ↔ _ from
    canon_iff_lookup (Unit.wf_divide a b ha)]
  intro k v hl
  rw [Unit.lookup_divide a b ha hb k] at hl
  cases hbk : lookupKey k b.parts with
  | none =>
    rw [hbk] at hl
    exact canon_lookup_ne_zero ha hac hl
  | some w =>
    rw [hbk] at hl
    have hl2 : (if (lookupKey k a.parts).getD 0 + -w = 0 then none
        else some ((lookupKey k a.parts).getD 0 + -w)) = some v := hl
    by_cases hz : (lookupKey k a.parts).getD 0 + -w = 0
    · rw [if_pos hz] at hl2
      cases hl2
    · rw [if_neg hz] at hl2
      injection hl2 with hl2
      rw [← hl2]
      exact hz

theorem Unit.canon_pow (u : Unit) (n : Int) : (u.pow n).Canon := by
  intro p hp
  rw [pow_parts_eq] at hp
  rcases List.mem_filterMap.mp hp with ⟨a, _, hfa⟩
  by_cases h0 : a.2 * n = 0
  · rw [if_pos h0] at hfa
    cases hfa
  · rw [if_neg h0] at hfa
    injection hfa with hfa
    rw [← hfa]
    exact h0

theorem Unit.reachable_wf_canon : ∀ {u : Unit}, u.Reachable → u.WF ∧ u.Canon := by
  intro u h
  induction h with
  | new => exact ⟨rfl, by intro p hp; cases hp⟩
  | new_named n =>
    refine ⟨rfl, ?_⟩
    intro p hp
    rcases List.mem_singleton.mp hp with rfl
    simp
  | multiply ha hb iha ihb =>
    exact ⟨Unit.wf_multiply _ _ iha.1,
      Unit.canon_multiply _ _ iha.1 ihb.1 iha.2⟩
  | divide ha hb iha ihb =>
    exact ⟨Unit.wf_divide _ _ iha.1,
      Unit.canon_divide _ _ iha.1 ihb.1 iha.2⟩
  | pow n ha iha =>
    exact ⟨Unit.wf_pow _ n iha.1, Unit.canon_pow _ n⟩

/-! ### Algebraic laws -/

theorem lookup_multiply_canon (a b : Unit) (ha : a.WF) (hb : b.WF)
    (hac : a.Canon) (k : Name) :
    lookupKey k (a.multiply b).parts =
      (if (lookupKey k a.parts).getD 0 + (lookupKey k b.parts).getD 0 = 0 then none
       else some ((lookupKey k a.parts).getD 0 + (lookupKey k b.parts).getD 0)) := by
  rw [Unit.lookup_multiply a b ha hb k]
  cases hbk : lookupKey k b.parts with
  | none =>
    show lookupKey k a.parts = _
    cases hak : lookupKey k a.parts with
    | none => simp
    | some v => simp [canon_lookup_ne_zero ha hac hak]
  | some w =>
    show (if (lookupKey k a.parts).getD 0 + w = 0 then none
      else some ((lookupKey k a.parts).getD 0 + w)) = _
    simp

theorem multiply_comm_canon (a b : Unit) (ha : a.WF) (hb : b.WF)
    (hac : a.Canon) (hbc : b.Canon) : a.multiply b = b.multiply a := by
  apply parts_inj
  apply eq_of_lookupKey_eq _ _ (Unit.wf_multiply a b ha) (Unit.wf_multiply b a hb)
  intro k
  rw [lookup_multiply_canon a b ha hb hac k, lookup_multiply_canon b a hb ha hbc k]
  apply ifz_congr
  ring

theorem multiply_divide_cancel (A B : Unit) (hA : A.WF) (hB : B.WF)
    (hAc : A.Canon) : (A.multiply B).divide B = A := by
  apply parts_inj
  apply eq_of_lookupKey_eq _ _
    (Unit.wf_divide _ B (Unit.wf_multiply A B hA)) hA
  intro k
  rw [Unit.lookup_divide _ B (Unit.wf_multiply A B hA) hB k]
  have hm := Unit.lookup_multiply A B hA hB k
  cases hbk : lookupKey k B.parts with
  | none =>
    rw [hbk] at hm
    show lookupKey k (A.multiply B).parts = lookupKey k A.parts
    exact hm
  | some w =>
    rw [hbk] at hm
    have hm2 : lookupKey k (A.multiply B).parts =
        (if (lookupKey k A.parts).getD 0 + w = 0 then none
         else some ((lookupKey k A.parts).getD 0 + w)) := hm
    show (if (lookupKey k (A.multiply B).parts).getD 0 + -w = 0 then none
      else some ((lookupKey k (A.multiply B).parts).getD 0 + -w)) = lookupKey k A.parts
    by_cases hz : (lookupKey k A.parts).getD 0 + w = 0
    · rw [if_pos hz] at hm2
      rw [hm2]
      simp only [Option.getD_none]
      conv_rhs => rw [canon_lookup_eq hA hAc k]
      apply ifz_congr
      omega
    · rw [if_neg hz] at hm2
      rw [hm2]
      simp only [Option.getD_some]
      conv_rhs => rw [canon_lookup_eq hA hAc k]
      apply ifz_congr
      omega

theorem divide_eq_multiply_pow_neg_one (A B : Unit) (hA : A.WF) (hB : B.WF)
    (hBc : B.Canon) : A.divide B = A.multiply (B.pow (-1)) := by
  apply parts_inj
  apply eq_of_lookupKey_eq _ _ (Unit.wf_divide A B hA)
    (Unit.wf_multiply A _ hA)
  intro k
  rw [Unit.lookup_divide A B hA hB k,
    Unit.lookup_multiply A _ hA (Unit.wf_pow B (-1) hB) k,
    Unit.lookup_pow B hB (-1) k]
  cases hbk : lookupKey k B.parts with
  | none => rfl
  | some w =>
    have hw : w ≠ 0 := canon_lookup_ne_zero hB hBc hbk
    have hb2 : (some w).bind (fun v => if v * (-1 : Int) = 0 then none
        else some (v * -1)) = some (w * -1) := by
      show (if w * (-1 : Int) = 0 then none else some (w * -1)) = some (w * -1)
      rw [if_neg (by simp [mul_eq_zero, hw])]
    rw [hb2]
    show (if (lookupKey k A.parts).getD 0 + -w = 0 then none
        else some ((lookupKey k A.parts).getD 0 + -w)) =
      (if (lookupKey k A.parts).getD 0 + w * -1 = 0 then none
        else some ((lookupKey k A.parts).getD 0 + w * -1))
    apply ifz_congr
    ring

/-! ### Pow laws -/

theorem filterMap_id_of_mem {α : Type} (f : α → Option α) :
    ∀ l : List α, (∀ a ∈ l, f a = some a) → l.filterMap f = l := by
  intro l
  induction l with
  | nil => intro _; rfl
  | cons a rest ih =>
    intro h
    rw [List.filterMap_cons, h a (by simp)]
    rw [ih (fun b hb => h b (List.mem_cons_of_mem a hb))]

theorem pow_one_canon (u : Unit) (hc : u.Canon) : u.pow 1 = u := by
  apply parts_inj
  rw [pow_parts_eq]
  apply filterMap_id_of_mem
  intro a ha
  simp [hc a ha]

theorem pow_zero_eq_new (u : Unit) : u.pow 0 = Unit.new := by
  apply parts_inj
  rw [pow_parts_eq]
  show List.filterMap _ u.parts = []
  rw [List.filterMap_eq_nil_iff]
  intro a _
  simp

theorem pow_neg_one_neg_one (u : Unit) (hc : u.Canon) :
    (u.pow (-1)).pow (-1) = u := by
  apply parts_inj
  rw [pow_parts_eq, pow_parts_eq, List.filterMap_filterMap]
  apply filterMap_id_of_mem
  intro a ha
  have h := hc a ha
  simp [h, mul_eq_zero]

/-! ### Display -/

theorem display_go : ∀ (l : List (Name × Int)) (i : Nat) (acc : String),
    List.foldl (fun acc ip => acc ++ (if 0 < ip.1 then " " else "") ++ dispEntry ip.2)
      acc (List.enumFrom (i + 1) l) = acc ++ restStr l := by
  intro l
  induction l with
  | nil => intro i acc; simp [restStr]
  | cons p t ih =>
    intro i acc
    rw [List.enumFrom_cons, List.foldl_cons]
    have hstep : ((acc ++ if 0 < (i + 1, p).1 then " " else "") ++ dispEntry (i + 1, p).2)
        = acc ++ " " ++ dispEntry p := by
      simp
    rw [hstep, ih (i + 1), restStr]
    simp [String.append_assoc]

theorem displaySpec_cons : ∀ (t : List (Name × Int)) (p : Name × Int),
    displaySpec (p :: t) = dispEntry p ++ restStr t := by
  intro t
  induction t with
  | nil => intro p; simp [displaySpec, restStr]
  | cons q ts ih =>
    intro p
    show dispEntry p ++ " " ++ displaySpec (q :: ts) = _
    rw [ih q, restStr]
    simp [String.append_assoc]

theorem display_eq_displaySpec (u : Unit) : u.display = displaySpec u.parts := by
  rcases u with ⟨parts⟩
  cases parts with
  | nil => rfl
  | cons p t =>
    show List.foldl _ "" (List.enum (p :: t)) = _
    rw [List.enum_cons, List.foldl_cons]
    have hstep : ((("" : String) ++ if 0 < ((0 : Nat), p).1 then " " else "")
        ++ dispEntry ((0 : Nat), p).2) = dispEntry p := by
      simp
    rw [hstep, show List.enumFrom 1 t = List.enumFrom (0 + 1) t from rfl,
      display_go t 0, displaySpec_cons t p]

/-! ### Singleton -/

theorem singleton_iff : ∀ (u : Unit) (n : Name),
    u.singleton = some n ↔ u.parts = [(n, 1)] := by
  intro u n
  rcases u with ⟨parts⟩
  cases parts with
  | nil => simp [Unit.singleton]
  | cons p t =>
    cases t with
    | nil =>
      show (if ¬[p].length = 1 then none
        else match [p].head? with
          | none => none
          | some (name, pw) => if pw ≠ 1 then none else some name) = some n
        ↔ [p] = [(n, 1)]
      rw [if_neg (by simp)]
      show (if p.2 ≠ 1 then none else some p.1) = some n ↔ [p] = [(n, 1)]
      by_cases h2 : p.2 = 1
      · rw [if_neg (by simp [h2])]
        simp [Prod.ext_iff, h2]
      · rw [if_pos h2]
        simp [Prod.ext_iff, h2]
    | cons q ts =>
      show (if ¬(p :: q :: ts).length = 1 then none
        else match (p :: q :: ts).head? with
          | none => none
          | some (name, pw) => if pw ≠ 1 then none else some name) = some n
        ↔ p :: q :: ts = [(n, 1)]
      rw [if_pos (by simp)]
      simp

/-! ### The claims -/

/-- Claim C1: multiply, divide and pow preserve the canonical-form
invariant (no stored exponent is 0), and hence every Unit reachable from
`Unit::new()` / `new_named` through finitely many multiply/divide/pow
calls never stores a zero exponent. -/
theorem claim_c1_canonical_invariant :
    (∀ A B : Unit, A.WF → B.WF → A.Canon → B.Canon →
        (A.multiply B).Canon ∧ (A.divide B).Canon ∧ ∀ n : Int, (A.pow n).Canon) ∧
    (∀ u : Unit, u.Reachable → u.Canon) := by
  constructor
  · intro A B hA hB hAc hBc
    exact ⟨Unit.canon_multiply A B hA hB hAc, Unit.canon_divide A B hA hB hAc,
      fun n => Unit.canon_pow A n⟩
  · intro u h
    exact (Unit.reachable_wf_canon h).2

/-- Witness for C1 at the concrete units `m` and `s`. -/
theorem claim_c1_witness :
    ((Unit.new_named "m").multiply (Unit.new_named "s")).Canon ∧ Unit.new.Canon :=
  ⟨(claim_c1_canonical_invariant.1 (Unit.new_named "m") (Unit.new_named "s")
      (by decide) (by decide) (by decide) (by decide)).1,
    claim_c1_canonical_invariant.2 Unit.new Unit.Reachable.new⟩

/-- Claim C2: the inverse law `A.multiply(B).divide(B) == A` for canonical
Units, as structural equality of the exponent maps. -/
theorem claim_c2_inverse_law (A B : Unit) (hA : A.WF) (hB : B.WF)
    (hAc : A.Canon) (hBc : B.Canon) : (A.multiply B).divide B = A :=
  multiply_divide_cancel A B hA hB hAc

/-- Witness for C2 at the concrete units `m` and `s`. -/
theorem claim_c2_witness :
    ((Unit.new_named "m").multiply (Unit.new_named "s")).divide (Unit.new_named "s")
      = Unit.new_named "m" :=
  claim_c2_inverse_law (Unit.new_named "m") (Unit.new_named "s")
    (by decide) (by decide) (by decide) (by decide)

/-- Claim C3: `pow(n)` is exponentiation by `n`: each exponent of a
canonical Unit is scaled by `n` and zero results are omitted; in
particular `A.pow(1) == A`, `A.pow(-1).pow(-1) == A`, and
`B.pow(0) == Unit::new()` for every `B` including the empty Unit. -/
theorem claim_c3_pow_exponentiation (A : Unit) (hA : A.WF) (hAc : A.Canon)
    (n : Int) :
    (∀ k : Name, lookupKey k (A.pow n).parts =
        (lookupKey k A.parts).bind
          (fun v => if v * n = 0 then none else some (v * n))) ∧
    A.pow 1 = A ∧ (A.pow (-1)).pow (-1) = A ∧
    (∀ B : Unit, B.pow 0 = Unit.new) :=
  ⟨fun k => Unit.lookup_pow A hA n k, pow_one_canon A hAc,
    pow_neg_one_neg_one A hAc, pow_zero_eq_new⟩

/-- Witness for C3 at the concrete unit `m` and `n = 3`. -/
theorem claim_c3_witness :
    lookupKey "m" ((Unit.new_named "m").pow 3).parts = some 3 ∧
    (Unit.new_named "m").pow 1 = Unit.new_named "m" ∧
    Unit.new.pow 0 = Unit.new := by
  have h := claim_c3_pow_exponentiation (Unit.new_named "m")
    (by decide) (by decide) 3
  refine ⟨?_, h.2.1, h.2.2.2 Unit.new⟩
  rw [h.1 "m"]
  decide

/-- Claim C4: division equals multiplication by the inverse:
`A.divide(B) == A.multiply(B.pow(-1))` for canonical Units. -/
theorem claim_c4_divide_is_multiply_inverse (A B : Unit) (hA : A.WF)
    (hB : B.WF) (hAc : A.Canon) (hBc : B.Canon) :
    A.divide B = A.multiply (B.pow (-1)) :=
  divide_eq_multiply_pow_neg_one A B hA hB hBc

/-- Witness for C4 at the concrete units `m` and `s`. -/
theorem claim_c4_witness :
    (Unit.new_named "m").divide (Unit.new_named "s")
      = (Unit.new_named "m").multiply ((Unit.new_named "s").pow (-1)) :=
  claim_c4_divide_is_multiply_inverse (Unit.new_named "m") (Unit.new_named "s")
    (by decide) (by decide) (by decide) (by decide)

/-- Claim C5: multiply computes the pointwise sum of exponents (absent key
counts as 0) with exact-zero sums omitted, and is commutative. -/
theorem claim_c5_multiply_pointwise_comm (A B : Unit) (hA : A.WF) (hB : B.WF)
    (hAc : A.Canon) (hBc : B.Canon) :
    (∀ k : Name, lookupKey k (A.multiply B).parts =
        (if (lookupKey k A.parts).getD 0 + (lookupKey k B.parts).getD 0 = 0
         then none
         else some ((lookupKey k A.parts).getD 0 + (lookupKey k B.parts).getD 0))) ∧
    A.multiply B = B.multiply A :=
  ⟨fun k => lookup_multiply_canon A B hA hB hAc k,
    multiply_comm_canon A B hA hB hAc hBc⟩

/-- Witness for C5 at the concrete units `m` and `s`. -/
theorem claim_c5_witness :
    lookupKey "m" ((Unit.new_named "m").multiply (Unit.new_named "s")).parts
      = some 1 ∧
    (Unit.new_named "m").multiply (Unit.new_named "s")
      = (Unit.new_named "s").multiply (Unit.new_named "m") := by
  have h := claim_c5_multiply_pointwise_comm (Unit.new_named "m")
    (Unit.new_named "s") (by decide) (by decide) (by decide) (by decide)
  refine ⟨?_, h.2⟩
  rw [h.1 "m"]
  decide

/-- Claim C6: `singleton` returns `Some(name)` iff the map is exactly
`{name: 1}`; it is `None` for the empty Unit, for `{m: 2}` and for
`{m: 1, s: 1}`, and `Some("m")` for `new_named("m")`. -/
theorem claim_c6_singleton :
    (∀ (u : Unit) (n : Name), u.singleton = some n ↔ u.parts = [(n, 1)]) ∧
    (Unit.new_named "m").singleton = some "m" ∧
    Unit.new.singleton = none ∧
    (Unit.mk [("m", 2)]).singleton = none ∧
    (Unit.mk [("m", 1), ("s", 1)]).singleton = none :=
  ⟨singleton_iff, by decide, by decide, by decide, by decide⟩

/-- Claim C7: in the formatter branch for `0 <= exponent < 4` the number is
rendered fixed-point with 0 fractional digits when `len(dec) < exponent`
and with `min(len(dec), 4) - exponent` fractional digits otherwise; with
`exponent = 0` and 4 decimal digits, exactly 4 fractional digits. -/
theorem claim_c7_formatter_branch1 (int dec : String) (exp : Int)
    (h0 : 0 ≤ exp) (h4 : exp < 4) :
    renderNumber int dec exp =
      (if dec.length < exp.toNat then NumberRendering.fixedPoint 0
       else NumberRendering.fixedPoint (min dec.length 4 - exp.toNat)) ∧
    (∀ int2 dec2 : String, dec2.length = 4 →
        renderNumber int2 dec2 0 = NumberRendering.fixedPoint 4) := by
  constructor
  · rw [renderNumber, if_pos ⟨h0, h4⟩]
  · intro int2 dec2 hlen
    rw [renderNumber, if_pos ⟨le_refl (0 : Int), by norm_num⟩,
      if_neg (by simp [hlen]), hlen]
    rfl

/-- Witness for C7 at a concrete decomposition with 4 decimal digits. -/
theorem claim_c7_witness :
    renderNumber "1" "2345" 0 = NumberRendering.fixedPoint 4 :=
  (claim_c7_formatter_branch1 "1" "2345" 0 (by decide) (by decide)).2
    "1" "2345" (by decide)

/-- Claim C8: the dimensionless unit displays as the empty string,
`m * m` is exactly `{m: 2}` and displays as `m^2`; in general `Display`
writes the entries in map order (ascending name order, by
well-formedness), separated by single spaces, appending `^exp` only when
the exponent differs from 1. -/
theorem claim_c8_unit_display :
    (Unit.new_named "m").divide (Unit.new_named "m") = Unit.new ∧
    ((Unit.new_named "m").divide (Unit.new_named "m")).display = "" ∧
    (Unit.new_named "m").multiply (Unit.new_named "m") = Unit.mk [("m", 2)] ∧
    ((Unit.new_named "m").multiply (Unit.new_named "m")).display = "m^2" ∧
    (∀ u : Unit, u.display = displaySpec u.parts) ∧
    (∀ u : Unit, u.WF →
        (u.parts.map Prod.fst).Pairwise (fun a b => nameLt a b = true)) := by
  refine ⟨by decide, by decide, by decide, by decide, display_eq_displaySpec, ?_⟩
  intro u hu
  rw [List.pairwise_map]
  exact wf_iff_pairwise.mp hu

/-- Witness for C8's universally quantified conjuncts at a two-entry unit. -/
theorem claim_c8_witness :
    ((Unit.new_named "m").multiply (Unit.new_named "s")).display = "m s" ∧
    ((Unit.mk [("m", 1), ("s", 1)]).parts.map Prod.fst).Pairwise
      (fun a b => nameLt a b = true) := by
  refine ⟨?_, claim_c8_unit_display.2.2.2.2.2 (Unit.mk [("m", 1), ("s", 1)])
    (by decide)⟩
  rw [claim_c8_unit_display.2.2.2.2.1
    ((Unit.new_named "m").multiply (Unit.new_named "s"))]
  decide

/-- Counterexample for C9 as stated: the `Value` struct derives only
`Debug` and `Clone` — it does not derive `PartialEq`, so `==` on `Value`
is not provided by the code. -/
theorem claim_c9_counterexample : "PartialEq" ∉ Value.derives := by decide

/-- Claim C9 (amended): `Value` itself derives no equality comparison
(only Debug and Clone), while its components `ValueKind` and `Unit` do;
structural equality of `Value` is componentwise:
`v = w` iff `v.kind = w.kind` and `v.unit = w.unit`. -/
theorem claim_c9_value_equality :
    "PartialEq" ∉ Value.derives ∧ "PartialEq" ∈ ValueKind.derives ∧
    "PartialEq" ∈ Unit.derives ∧
    (∀ v w : Value, v = w ↔ v.kind = w.kind ∧ v.unit = w.unit) := by
  refine ⟨by decide, by decide, by decide, ?_⟩
  intro v w
  cases v
  cases w
  simp

/-- Claim C10: in formatter branch 1, when `len(dec) >= exponent` the
precision computation `min(len(dec), 4) - exponent` never underflows (the
subtrahend never exceeds the minuend), so the branch is total. -/
theorem claim_c10_no_underflow (int dec : String) (exp : Int)
    (h0 : 0 ≤ exp) (h4 : exp < 4) (hlen : exp.toNat ≤ dec.length) :
    exp.toNat ≤ min dec.length 4 ∧
    renderNumber int dec exp
      = NumberRendering.fixedPoint (min dec.length 4 - exp.toNat) ∧
    min dec.length 4 - exp.toNat + exp.toNat = min dec.length 4 := by
  have hle : exp.toNat ≤ min dec.length 4 := by omega
  refine ⟨hle, ?_, by omega⟩
  rw [renderNumber, if_pos ⟨h0, h4⟩, if_neg (by omega)]

/-- Witness for C10 at a concrete decomposition. -/
theorem claim_c10_witness :
    renderNumber "1" "23" 1 = NumberRendering.fixedPoint 1 :=
  (claim_c10_no_underflow "1" "23" 1 (by decide) (by decide) (by decide)).2.1

end Natpl
